import Mathlib

/-!
Verification development for the `wq_loader` water-quality ETL pipeline
(`wq_etl.py`): a shallow embedding of the transform step
(`transform_wq_data`, `fix_well_name`) over association-list rows, and of
the load step (`build_load_query`, `check_table_exists`,
`load_data_into_pg_warehouse`) over an abstract Postgres table model,
together with proofs about the embedded definitions.

Polars dataframes are embedded as lists of rows; a row is an association
list from column name to value, all rows of a frame sharing the same
column list.  Polars column expressions are embedded as per-row functions,
since every expression used by the source is elementwise.
-/

set_option autoImplicit false

namespace WqLoader

/-! ## String primitives

The polars string operations used by the source (`str.replace` with a
literal pattern, which rewrites only the first occurrence; `str.replace_all`
with pattern `" "` and replacement `""`, which deletes every space;
`str.contains`, a substring test for the literal patterns used here; and
`str.len_chars`) are embedded over `List Char`, with `String` wrappers. -/

/-- Does `pat` occur as a contiguous substring of `l`?  Embeds polars
`str.contains` for the literal (regex-metacharacter-free) patterns used in
the source. -/
def containsSubL (pat : List Char) : List Char → Bool
  | [] => pat.isPrefixOf ([] : List Char)
  | c :: rest => pat.isPrefixOf (c :: rest) || containsSubL pat rest

/-- Replace the first occurrence of `pat` in `l` by `rep`; if `pat` does not
occur, return `l` unchanged.  Embeds polars `str.replace` with a literal
pattern (polars replaces only the first match). -/
def replaceFirstL (pat rep : List Char) : List Char → List Char
  | [] => []
  | c :: rest =>
    if pat.isPrefixOf (c :: rest) then rep ++ (c :: rest).drop pat.length
    else c :: replaceFirstL pat rep rest

/-- String wrapper for `containsSubL`. -/
def containsStr (s pat : String) : Bool := containsSubL pat.data s.data

/-- String wrapper for `replaceFirstL`. -/
def replaceFirstStr (s pat rep : String) : String := ⟨replaceFirstL pat.data rep.data s.data⟩

/-- Delete every space.  Embeds polars `str.replace_all(" ", "")`: with a
single-character pattern and empty replacement, replacing all matches is
exactly deleting every space. -/
def removeSpacesStr (s : String) : String := ⟨s.data.filter (fun c => c ≠ ' ')⟩

/-- Keep everything strictly before the first space.  Embeds
`str.replace(" (.*)", "")` on `sample_date` (line 73): the regex matches
from the first space to the end of the value, and the first match is
replaced by the empty string, so everything from the first space onward is
discarded. -/
def stripFromFirstSpace (s : String) : String := ⟨s.data.takeWhile (fun c => c ≠ ' ')⟩

/-! ## Well-number normalization (`fix_well_name`, lines 79–114)

The column pipeline of `fix_well_name` is elementwise on
`state_well_number`; its stages are embedded as functions on `String`.  -/

/-- Lines 90–93: if the value contains a hyphen, delete all spaces,
otherwise replace the first space by a hyphen. -/
def sepStep (s : String) : String :=
  if containsStr s "-" then removeSpacesStr s else replaceFirstStr s " " "-"

/-- Lines 90–94: `sepStep` followed by the unconditional second
`str.replace_all(" ", "")` pass. -/
def sepNorm (s : String) : String := removeSpacesStr (sepStep s)

/-- Lines 97–103: length-based zero padding, conditioned on the `len`
column computed at line 96 (the length after separator normalization).
Length 12: replace the first `-` by `-0`; length 11: append `"01"`;
otherwise unchanged. -/
def padByLen (n : Nat) (s : String) : String :=
  if n = 12 then replaceFirstStr s "-" "-0"
  else if n = 11 then s ++ "01"
  else s

/-- Lines 104–112: the literal correction table, checked against the
current (post-padding) value. -/
def literalFix (s : String) : String :=
  if s = "30S/25E-ISH01" then replaceFirstStr s "IS" "15"
  else if s = "30S/25E-020D1" then replaceFirstStr s "020D1" "20D01"
  else if containsStr s "30E/25S" then replaceFirstStr s "30E/25S" "30S/25E"
  else s

/-- The complete per-value normalization performed by `fix_well_name` on a
single `state_well_number` value: separator normalization, then
length-based padding (the padding length is the length recorded in the
`len` column, i.e. the post-separator-normalization length), then the
literal correction table. -/
def fixWellNameValue (s : String) : String :=
  literalFix (padByLen (sepNorm s).length (sepNorm s))

example : sepNorm "30S/25E ISH01" = "30S/25E-ISH01" := by decide
example : fixWellNameValue "30S/25E ISH01" = "30S/25E-15H01" := by decide
example : fixWellNameValue "30S / 25E - 020D1" = "30S/25E-20D01" := by decide
example : fixWellNameValue "30S/25E 2D01" = "30S/25E-02D01" := by decide
example : fixWellNameValue "305/25E02D01" = "305/25E02D01" := by decide

/-! ## Dataframe model

A cell value: a string, a null, a number (used for the `len` column and for
the numeric CSV columns, whose exact arithmetic the claims never touch), or
the `date_added` stamp produced by `pl.lit(datetime.today())`, tokenized by
the processing instant. -/

inductive Val where
  | vstr (s : String)
  | vnull
  | vnum (n : Nat)
  | vdate (d : Nat)
deriving DecidableEq, Repr

/-- A dataframe row: an association list from column name to value.  All
rows of one frame share the same column list, in the frame's column
order. -/
abbrev Row := List (String × Val)

/-- First value stored under column `c`, if any. -/
def lookupVal (r : Row) (c : String) : Option Val :=
  match r with
  | [] => none
  | kv :: rest => if kv.1 = c then some kv.2 else lookupVal rest c

/-- Apply `f` to string values of column `c`, elementwise; other values
(nulls in particular) pass through, as polars string expressions propagate
null. -/
def strMap (f : String → String) : Val → Val
  | .vstr s => .vstr (f s)
  | v => v

/-- Embeds a polars `with_columns` whose expression is an elementwise
string operation on column `c`: every entry of column `c` is rewritten
through `f`, all other entries are untouched. -/
def mapStrCol (c : String) (f : String → String) (r : Row) : Row :=
  r.map (fun kv => if kv.1 = c then (kv.1, strMap f kv.2) else kv)

/-- Embeds a polars `with_columns` with an aliased expression: if column
`c` exists it is replaced in place, otherwise it is appended at the end of
the column order.  The new value is computed from the input row. -/
def withColumnRow (c : String) (f : Row → Val) (r : Row) : Row :=
  if c ∈ r.map Prod.fst then
    r.map (fun kv => if kv.1 = c then (kv.1, f r) else kv)
  else r ++ [(c, f r)]

/-- Rename a key through the rename mapping (`data.rename(new_cols_dict)`,
line 61); keys outside the mapping are kept. -/
def applyRename (m : List (String × String)) (k : String) : String :=
  match m.find? (fun p => p.1 = k) with
  | some p => p.2
  | none => k

def renameRow (m : List (String × String)) (r : Row) : Row :=
  r.map (fun kv => (applyRename m kv.1, kv.2))

/-- Embeds `data.drop(cols_to_drop)` at row level: entries whose column is
listed are removed. -/
def dropColsRow (cs : List String) (r : Row) : Row :=
  r.filter (fun kv => decide (kv.1 ∉ cs))

/-- Embeds the column selection `data[new_cols_in_order]`: the row is
rebuilt with exactly the requested columns in the requested order; a
missing column fails (polars raises, and `transform_wq_data`'s `except`
then yields no dataframe). -/
def selectRow (cs : List String) (r : Row) : Option Row :=
  match cs with
  | [] => some []
  | c :: cs2 =>
    match lookupVal r c, selectRow cs2 r with
    | some v, some r2 => some ((c, v) :: r2)
    | _, _ => none

def selectAll (cs : List String) : List Row → Option (List Row)
  | [] => some []
  | r :: rest =>
    match selectRow cs r, selectAll cs rest with
    | some r2, some rest2 => some (r2 :: rest2)
    | _, _ => none

/-! ## Row filter (lines 64–68) -/

/-- The conjunction of the three `state_well_number` substring exclusions
(lines 64–68).  A row whose `state_well_number` is not a string (null in
particular) yields a null mask in polars and is dropped, hence the `false`
fallback. -/
def wellFilterPred (r : Row) : Bool :=
  match lookupVal r "state_well_number" with
  | some (.vstr s) =>
      !containsStr s "Field Blank" && !containsStr s "TB" && !containsStr s "TCP"
  | _ => false

/-- `drop_nulls("result")` (line 68): the row survives iff its `result`
value is present and non-null. -/
def resultNonNull (r : Row) : Bool :=
  match lookupVal r "result" with
  | some .vnull => false
  | none => false
  | some _ => true

/-- The filtering stage of `transform_wq_data` (lines 64–68): the
substring filter followed by `drop_nulls("result")`. -/
def rowFilterStage (df : List Row) : List Row :=
  (df.filter wellFilterPred).filter resultNonNull

/-! ## `fix_well_name` at dataframe level (lines 90–114) -/

/-- Line 96: the `len` column value, `str.len_chars` of the current
`state_well_number` (null for a null well). -/
def lenVal : Option Val → Val
  | some (.vstr s) => .vnum s.length
  | _ => .vnull

def addLenCol (r : Row) : Row :=
  withColumnRow "len" (fun r0 => lenVal (lookupVal r0 "state_well_number")) r

/-- The numeric content of the `len` column, if any. -/
def rowLen (r : Row) : Option Nat :=
  match lookupVal r "len" with
  | some (.vnum n) => some n
  | _ => none

/-- Lines 97–103: the padding `when/then/otherwise`, conditioned on the
`len` column.  A row without a numeric `len` (null well) keeps its value,
matching the null propagation of the polars conditional. -/
def padStep (r : Row) : Row :=
  match rowLen r with
  | some n => mapStrCol "state_well_number" (padByLen n) r
  | none => r

/-- `fix_well_name` (lines 79–114): separator normalization in two
`with_columns` passes, the `len` column, the length-based padding, and the
literal correction table, each an elementwise pass over the frame. -/
def fix_well_name (df : List Row) : List Row :=
  let d1 := df.map (mapStrCol "state_well_number" sepStep)
  let d2 := d1.map (mapStrCol "state_well_number" removeSpacesStr)
  let d3 := d2.map addLenCol
  let d4 := d3.map padStep
  d4.map (mapStrCol "state_well_number" literalFix)

/-- The per-row action of `fix_well_name`. -/
def fixRow (r : Row) : Row :=
  mapStrCol "state_well_number" literalFix
    (padStep (addLenCol (mapStrCol "state_well_number" removeSpacesStr
      (mapStrCol "state_well_number" sepStep r))))

theorem fix_well_name_eq_map (df : List Row) : fix_well_name df = df.map fixRow := by
  simp [fix_well_name, fixRow, List.map_map]

/-! ## `transform_wq_data` (lines 40–76)

The function returns `none` when any stage fails (the bare `except:` at
line 75 logs and falls through without a `return`, so the Python function
returns `None`); in this embedding the only failure point is the final
column selection, the earlier stages being total on association-list
rows. -/

def transform_wq_data (cols_to_drop new_cols_in_order : List String)
    (new_cols_dict : List (String × String)) (today : Nat)
    (data : List Row) : Option (List Row) :=
  let d1 := data.map (renameRow new_cols_dict)
  let d2 := d1.map (withColumnRow "date_added" (fun _ => .vdate today))
  let d3 := rowFilterStage d2
  let d4 := fix_well_name d3
  let d5 := d4.map (dropColsRow cols_to_drop)
  match selectAll new_cols_in_order d5 with
  | none => none
  | some d6 => some (d6.map (mapStrCol "sample_date" stripFromFirstSpace))

/-! ## Lookup lemma kit for the row operations -/

theorem lookupVal_nil (c : String) : lookupVal [] c = none := rfl

theorem lookupVal_cons (kv : String × Val) (rest : Row) (c : String) :
    lookupVal (kv :: rest) c = if kv.1 = c then some kv.2 else lookupVal rest c := rfl

theorem lookupVal_isSome_iff_mem (r : Row) (c : String) :
    (lookupVal r c).isSome = true ↔ c ∈ r.map Prod.fst := by
  induction r with
  | nil => simp [lookupVal]
  | cons kv rest ih =>
    by_cases h : kv.1 = c
    · simp [lookupVal_cons, h]
    · simp [lookupVal_cons, h, ih, Ne.symm h]

theorem keys_mapStrCol (c : String) (f : String → String) (r : Row) :
    (mapStrCol c f r).map Prod.fst = r.map Prod.fst := by
  induction r with
  | nil => rfl
  | cons kv rest ih =>
    by_cases h : kv.1 = c
    · simpa [mapStrCol, h] using ih
    · simpa [mapStrCol, h] using ih

theorem lookupVal_mapStrCol_ne (c c2 : String) (f : String → String) (r : Row)
    (h : c2 ≠ c) : lookupVal (mapStrCol c f r) c2 = lookupVal r c2 := by
  induction r with
  | nil => rfl
  | cons kv rest ih =>
    by_cases hk : kv.1 = c
    · simpa [mapStrCol, lookupVal_cons, hk, Ne.symm h] using ih
    · by_cases hk2 : kv.1 = c2
      · simp [mapStrCol, lookupVal_cons, hk, hk2, h]
      · simpa [mapStrCol, lookupVal_cons, hk, hk2] using ih

theorem lookupVal_mapStrCol_self (c : String) (f : String → String) (r : Row) :
    lookupVal (mapStrCol c f r) c = (lookupVal r c).map (strMap f) := by
  induction r with
  | nil => rfl
  | cons kv rest ih =>
    by_cases hk : kv.1 = c
    · simp [mapStrCol, lookupVal_cons, hk]
    · simpa [mapStrCol, lookupVal_cons, hk] using ih

theorem withColumnRow_not_mem (c : String) (f : Row → Val) (r : Row)
    (h : c ∉ r.map Prod.fst) : withColumnRow c f r = r ++ [(c, f r)] := by
  simp [withColumnRow, h]

theorem keys_withColumnRow_not_mem (c : String) (f : Row → Val) (r : Row)
    (h : c ∉ r.map Prod.fst) :
    (withColumnRow c f r).map Prod.fst = r.map Prod.fst ++ [c] := by
  simp [withColumnRow_not_mem c f r h]

theorem lookupVal_append_single_ne (r : Row) (c c2 : String) (v : Val)
    (h : c2 ≠ c) : lookupVal (r ++ [(c, v)]) c2 = lookupVal r c2 := by
  induction r with
  | nil => simp [lookupVal_cons, lookupVal_nil, Ne.symm h]
  | cons kv rest ih =>
    by_cases hk : kv.1 = c2
    · simp [lookupVal_cons, hk]
    · simpa [lookupVal_cons, hk] using ih

theorem lookupVal_append_single_self (r : Row) (c : String) (v : Val)
    (h : c ∉ r.map Prod.fst) : lookupVal (r ++ [(c, v)]) c = some v := by
  induction r with
  | nil => simp [lookupVal_cons]
  | cons kv rest ih =>
    simp only [List.map_cons, List.mem_cons] at h
    push_neg at h
    simpa [lookupVal_cons, Ne.symm h.1] using ih h.2

theorem lookupVal_mapConst_ne (c c2 : String) (v : Val) (r : Row)
    (h : c2 ≠ c) :
    lookupVal (r.map (fun kv => if kv.1 = c then (kv.1, v) else kv)) c2 =
      lookupVal r c2 := by
  induction r with
  | nil => rfl
  | cons kv rest ih =>
    by_cases hk : kv.1 = c
    · simpa [lookupVal_cons, hk, Ne.symm h] using ih
    · by_cases hk2 : kv.1 = c2
      · simp [lookupVal_cons, hk, hk2, h]
      · simpa [lookupVal_cons, hk, hk2] using ih

theorem lookupVal_mapConst_self (c : String) (v : Val) (r : Row)
    (h : c ∈ r.map Prod.fst) :
    lookupVal (r.map (fun kv => if kv.1 = c then (kv.1, v) else kv)) c = some v := by
  induction r with
  | nil => simp at h
  | cons kv rest ih =>
    by_cases hk : kv.1 = c
    · simp [lookupVal_cons, hk]
    · simp only [List.map_cons, List.mem_cons] at h
      rcases h with h | h
      · exact absurd h.symm hk
      · simpa [lookupVal_cons, hk] using ih h

theorem lookupVal_withColumnRow_ne (c c2 : String) (f : Row → Val) (r : Row)
    (h : c2 ≠ c) : lookupVal (withColumnRow c f r) c2 = lookupVal r c2 := by
  unfold withColumnRow
  by_cases hc : c ∈ r.map Prod.fst
  · simp only [hc, if_true]
    exact lookupVal_mapConst_ne c c2 (f r) r h
  · simp only [hc, if_false]
    exact lookupVal_append_single_ne r c c2 (f r) h

theorem lookupVal_withColumnRow_self (c : String) (f : Row → Val) (r : Row) :
    lookupVal (withColumnRow c f r) c = some (f r) := by
  unfold withColumnRow
  by_cases hc : c ∈ r.map Prod.fst
  · simp only [hc, if_true]
    exact lookupVal_mapConst_self c (f r) r hc
  · simp only [hc, if_false]
    exact lookupVal_append_single_self r c (f r) hc

theorem lookupVal_dropColsRow_not_mem (cs : List String) (r : Row) (c : String)
    (h : c ∉ cs) : lookupVal (dropColsRow cs r) c = lookupVal r c := by
  induction r with
  | nil => rfl
  | cons kv rest ih =>
    by_cases hd : kv.1 ∈ cs
    · have hne : kv.1 ≠ c := fun he => h (he ▸ hd)
      simpa [dropColsRow, lookupVal_cons, hd, hne] using ih
    · by_cases hk : kv.1 = c
      · simp [dropColsRow, List.filter_cons, hd, lookupVal_cons, hk, h]
      · simpa [dropColsRow, lookupVal_cons, hd, hk] using ih

theorem lookupVal_dropColsRow_mem (cs : List String) (r : Row) (c : String)
    (h : c ∈ cs) : lookupVal (dropColsRow cs r) c = none := by
  induction r with
  | nil => rfl
  | cons kv rest ih =>
    by_cases hd : kv.1 ∈ cs
    · simpa [dropColsRow, hd] using ih
    · have hne : kv.1 ≠ c := fun he => hd (he ▸ h)
      simpa [dropColsRow, lookupVal_cons, hd, hne] using ih

theorem selectRow_keys (cs : List String) (r r2 : Row)
    (h : selectRow cs r = some r2) : r2.map Prod.fst = cs := by
  induction cs generalizing r2 with
  | nil =>
    simp only [selectRow] at h
    simp [← Option.some.injEq r2 [], h.symm]
  | cons c cs2 ih =>
    simp only [selectRow] at h
    cases hv : lookupVal r c with
    | none => rw [hv] at h; exact absurd h (by simp)
    | some v =>
      rw [hv] at h
      cases hs : selectRow cs2 r with
      | none => rw [hs] at h; exact absurd h (by simp)
      | some rest2 =>
        rw [hs] at h
        cases h
        simp [ih rest2 hs]

theorem selectRow_lookup_mem (cs : List String) (r r2 : Row) (c : String)
    (h : selectRow cs r = some r2) (hc : c ∈ cs) :
    lookupVal r2 c = lookupVal r c := by
  induction cs generalizing r2 with
  | nil => simp at hc
  | cons c0 cs2 ih =>
    simp only [selectRow] at h
    cases hv : lookupVal r c0 with
    | none => rw [hv] at h; exact absurd h (by simp)
    | some v =>
      rw [hv] at h
      cases hs : selectRow cs2 r with
      | none => rw [hs] at h; exact absurd h (by simp)
      | some rest2 =>
        rw [hs] at h
        cases h
        by_cases he : c0 = c
        · subst he; simp [lookupVal_cons, hv]
        · rcases List.mem_cons.mp hc with h1 | h1
          · exact absurd h1.symm he
          · simpa [lookupVal_cons, he] using ih rest2 hs h1

theorem selectRow_lookup_not_mem (cs : List String) (r r2 : Row) (c : String)
    (h : selectRow cs r = some r2) (hc : c ∉ cs) :
    lookupVal r2 c = none := by
  have hk := selectRow_keys cs r r2 h
  cases hl : lookupVal r2 c with
  | none => rfl
  | some v =>
    have : (lookupVal r2 c).isSome = true := by rw [hl]; rfl
    rw [lookupVal_isSome_iff_mem, hk] at this
    exact absurd this hc

theorem selectAll_mem (cs : List String) (df out : List Row) (r2 : Row)
    (h : selectAll cs df = some out) (hm : r2 ∈ out) :
    ∃ r ∈ df, selectRow cs r = some r2 := by
  induction df generalizing out with
  | nil =>
    simp only [selectAll] at h
    cases h
    simp at hm
  | cons r0 rest ih =>
    simp only [selectAll] at h
    cases hs : selectRow cs r0 with
    | none => rw [hs] at h; exact absurd h (by simp)
    | some s0 =>
      rw [hs] at h
      cases ha : selectAll cs rest with
      | none => rw [ha] at h; exact absurd h (by simp)
      | some out0 =>
        rw [ha] at h
        cases h
        rcases List.mem_cons.mp hm with h1 | h1
        · exact ⟨r0, List.mem_cons_self r0 rest, h1 ▸ hs⟩
        · rcases ih out0 ha h1 with ⟨r, hr, hsel⟩
          exact ⟨r, List.mem_cons_of_mem r0 hr, hsel⟩

/-! ## Characterizations of the filter predicates -/

theorem wellFilterPred_eq_true_iff (r : Row) (s : String)
    (h : lookupVal r "state_well_number" = some (.vstr s)) :
    wellFilterPred r = true ↔
      containsStr s "Field Blank" = false ∧ containsStr s "TB" = false ∧
        containsStr s "TCP" = false := by
  simp only [wellFilterPred, h]
  constructor
  · intro hb
    have h1 := Bool.and_elim_left (Bool.and_elim_left hb)
    have h2 := Bool.and_elim_right (Bool.and_elim_left hb)
    have h3 := Bool.and_elim_right hb
    refine ⟨?_, ?_, ?_⟩ <;> simp_all
  · intro ⟨h1, h2, h3⟩
    simp [h1, h2, h3]

theorem resultNonNull_iff (r : Row) :
    resultNonNull r = true ↔
      ∃ v, lookupVal r "result" = some v ∧ v ≠ Val.vnull := by
  unfold resultNonNull
  cases hv : lookupVal r "result" with
  | none => simp
  | some v => cases v <;> simp [hv]

theorem mem_rowFilterStage (df : List Row) (r : Row) :
    r ∈ rowFilterStage df ↔
      r ∈ df ∧ wellFilterPred r = true ∧ resultNonNull r = true := by
  unfold rowFilterStage
  simp only [List.mem_filter]
  tauto

/-! ## Frame lemmas for the per-row action of `fix_well_name` -/

theorem lookupVal_padStep_ne (r : Row) (c : String)
    (h : c ≠ "state_well_number") : lookupVal (padStep r) c = lookupVal r c := by
  unfold padStep
  cases rowLen r with
  | none => rfl
  | some n => exact lookupVal_mapStrCol_ne _ c (padByLen n) r h

theorem keys_padStep (r : Row) : (padStep r).map Prod.fst = r.map Prod.fst := by
  unfold padStep
  cases rowLen r with
  | none => rfl
  | some n => exact keys_mapStrCol _ (padByLen n) r

theorem lookupVal_fixRow_frame (r : Row) (c : String)
    (h1 : c ≠ "state_well_number") (h2 : c ≠ "len") :
    lookupVal (fixRow r) c = lookupVal r c := by
  unfold fixRow addLenCol
  rw [lookupVal_mapStrCol_ne _ c literalFix _ h1,
    lookupVal_padStep_ne _ c h1, lookupVal_withColumnRow_ne _ c _ _ h2,
    lookupVal_mapStrCol_ne _ c removeSpacesStr _ h1,
    lookupVal_mapStrCol_ne _ c sepStep _ h1]

theorem keys_fixRow (r : Row) (h : "len" ∉ r.map Prod.fst) :
    (fixRow r).map Prod.fst = r.map Prod.fst ++ ["len"] := by
  unfold fixRow addLenCol
  rw [keys_mapStrCol, keys_padStep, keys_withColumnRow_not_mem, keys_mapStrCol,
    keys_mapStrCol]
  · rw [keys_mapStrCol, keys_mapStrCol]; exact h

theorem lookupVal_fixRow_well (r : Row) (s : String)
    (h : lookupVal r "state_well_number" = some (.vstr s)) :
    lookupVal (fixRow r) "state_well_number" =
        some (.vstr (fixWellNameValue s)) ∧
      lookupVal (fixRow r) "len" = some (.vnum (sepNorm s).length) := by
  have h1 : lookupVal (mapStrCol "state_well_number" sepStep r)
      "state_well_number" = some (.vstr (sepStep s)) := by
    rw [lookupVal_mapStrCol_self, h]; rfl
  have h2 : lookupVal (mapStrCol "state_well_number" removeSpacesStr
      (mapStrCol "state_well_number" sepStep r)) "state_well_number" =
      some (.vstr (sepNorm s)) := by
    rw [lookupVal_mapStrCol_self, h1]; rfl
  set r2 := mapStrCol "state_well_number" removeSpacesStr
    (mapStrCol "state_well_number" sepStep r) with hr2
  have h3 : lookupVal (addLenCol r2) "state_well_number" =
      some (.vstr (sepNorm s)) := by
    unfold addLenCol
    rw [lookupVal_withColumnRow_ne _ _ _ _ (by decide), h2]
  have h4 : lookupVal (addLenCol r2) "len" =
      some (.vnum (sepNorm s).length) := by
    unfold addLenCol
    rw [lookupVal_withColumnRow_self, h2]; rfl
  have h5 : rowLen (addLenCol r2) = some (sepNorm s).length := by
    unfold rowLen
    rw [h4]
  have h6 : lookupVal (padStep (addLenCol r2)) "state_well_number" =
      some (.vstr (padByLen (sepNorm s).length (sepNorm s))) := by
    unfold padStep
    rw [h5, lookupVal_mapStrCol_self, h3]; rfl
  have h7 : lookupVal (padStep (addLenCol r2)) "len" =
      some (.vnum (sepNorm s).length) := by
    rw [lookupVal_padStep_ne _ _ (by decide), h4]
  constructor
  · unfold fixRow
    rw [← hr2, lookupVal_mapStrCol_self, h6]; rfl
  · unfold fixRow
    rw [← hr2, lookupVal_mapStrCol_ne _ _ _ _ (by decide), h7]

theorem wellFilterPred_some_vstr (r : Row) (h : wellFilterPred r = true) :
    ∃ s, lookupVal r "state_well_number" = some (.vstr s) := by
  unfold wellFilterPred at h
  cases hv : lookupVal r "state_well_number" with
  | none => rw [hv] at h; exact absurd h (by simp)
  | some v =>
    cases v with
    | vstr s => exact ⟨s, rfl⟩
    | vnull => rw [hv] at h; exact absurd h (by simp)
    | vnum n => rw [hv] at h; exact absurd h (by simp)
    | vdate d => rw [hv] at h; exact absurd h (by simp)

/-- Decomposition of a successful `transform_wq_data` run: every output row
is the `sample_date`-stripped image of a row selected (in target order)
from the dropped-and-well-fixed image of a row that passed both filter
stages. -/
theorem transform_mem_out (ctd ncio : List String) (ncd : List (String × String))
    (today : Nat) (data out : List Row) (r : Row)
    (h : transform_wq_data ctd ncio ncd today data = some out) (hr : r ∈ out) :
    ∃ r4, wellFilterPred r4 = true ∧ resultNonNull r4 = true ∧
      ∃ r6, selectRow ncio (dropColsRow ctd (fixRow r4)) = some r6 ∧
        r = mapStrCol "sample_date" stripFromFirstSpace r6 := by
  simp only [transform_wq_data] at h
  split at h
  · exact absurd h (by simp)
  · rename_i d6 hsel
    cases h
    obtain ⟨r6, hr6, hre⟩ := List.mem_map.mp hr
    obtain ⟨rd, hrd, hselrow⟩ := selectAll_mem _ _ _ _ hsel hr6
    obtain ⟨r5, hr5, hdrop⟩ := List.mem_map.mp hrd
    rw [fix_well_name_eq_map] at hr5
    obtain ⟨r4, hr4, hfix⟩ := List.mem_map.mp hr5
    obtain ⟨-, hwell, hres⟩ := (mem_rowFilterStage _ _).mp hr4
    refine ⟨r4, hwell, hres, r6, ?_, hre.symm⟩
    rw [hfix, hdrop]
    exact hselrow

/-- Every row of a successful `transform_wq_data` run carries exactly the
columns of `new_cols_in_order`, in that order (shared helper). -/
theorem transform_mem_keys (ctd ncio : List String)
    (ncd : List (String × String)) (today : Nat) (data out : List Row) (r : Row)
    (h : transform_wq_data ctd ncio ncd today data = some out) (hr : r ∈ out) :
    r.map Prod.fst = ncio := by
  obtain ⟨r4, -, -, r6, hsel, hre⟩ :=
    transform_mem_out ctd ncio ncd today data out r h hr
  rw [hre, keys_mapStrCol, selectRow_keys _ _ _ hsel]

/-- **C5** (confirmed).  Every record of a successful `transform_wq_data`
run has exactly the columns of `new_cols_in_order`, in that declared
order, and neither its `result` nor its `state_well_number` value is
null. -/
theorem transform_output_schema (ctd ncio : List String)
    (ncd : List (String × String)) (today : Nat) (data out : List Row)
    (h : transform_wq_data ctd ncio ncd today data = some out) :
    ∀ r ∈ out, r.map Prod.fst = ncio ∧
      lookupVal r "result" ≠ some Val.vnull ∧
      lookupVal r "state_well_number" ≠ some Val.vnull := by
  intro r hr
  obtain ⟨r4, hwell, hres, r6, hsel, hre⟩ :=
    transform_mem_out ctd ncio ncd today data out r h hr
  have hkeys6 := selectRow_keys _ _ _ hsel
  refine ⟨?_, ?_, ?_⟩
  · rw [hre, keys_mapStrCol, hkeys6]
  · rw [hre, lookupVal_mapStrCol_ne _ _ _ _ (by decide)]
    obtain ⟨v, hv, hvn⟩ := (resultNonNull_iff r4).mp hres
    have hfix : lookupVal (fixRow r4) "result" = some v := by
      rw [lookupVal_fixRow_frame _ _ (by decide) (by decide), hv]
    by_cases hm : "result" ∈ ncio
    · rw [selectRow_lookup_mem _ _ _ _ hsel hm]
      by_cases hc : "result" ∈ ctd
      · rw [lookupVal_dropColsRow_mem _ _ _ hc]; simp
      · rw [lookupVal_dropColsRow_not_mem _ _ _ hc, hfix]
        simp only [ne_eq, Option.some.injEq]
        exact hvn
    · rw [selectRow_lookup_not_mem _ _ _ _ hsel hm]; simp
  · rw [hre, lookupVal_mapStrCol_ne _ _ _ _ (by decide)]
    obtain ⟨s, hs⟩ := wellFilterPred_some_vstr r4 hwell
    obtain ⟨hwv, -⟩ := lookupVal_fixRow_well r4 s hs
    by_cases hm : "state_well_number" ∈ ncio
    · rw [selectRow_lookup_mem _ _ _ _ hsel hm]
      by_cases hc : "state_well_number" ∈ ctd
      · rw [lookupVal_dropColsRow_mem _ _ _ hc]; simp
      · rw [lookupVal_dropColsRow_not_mem _ _ _ hc, hwv]; simp
    · rw [selectRow_lookup_not_mem _ _ _ _ hsel hm]; simp

/-- **C4** (confirmed).  On rows whose `state_well_number` field holds a
string, the filtering stage of `transform_wq_data` (lines 64–68) is an
if-and-only-if predicate: a row survives exactly when its well identifier
contains none of `"Field Blank"`, `"TB"`, `"TCP"` and its `result` value
is present and non-null; survivors are the original rows, unchanged. -/
theorem row_filter_iff (batch : List Row) (r : Row) (s : String)
    (h : lookupVal r "state_well_number" = some (.vstr s)) :
    r ∈ rowFilterStage batch ↔
      r ∈ batch ∧ containsStr s "Field Blank" = false ∧
        containsStr s "TB" = false ∧ containsStr s "TCP" = false ∧
        resultNonNull r = true := by
  rw [mem_rowFilterStage, wellFilterPred_eq_true_iff r s h]
  tauto

/-- **C2** (confirmed).  The literal correction table of `fix_well_name`
is checked against the value produced by rules 1–3 (separator
normalization then zero-padding), not the raw input; on the concrete
input `"30S/25E ISH01"` the first space becomes a hyphen, the length-13
result is not padded, and the exact-match rule rewrites `"IS"` to `"15"`,
yielding `"30S/25E-15H01"`. -/
theorem literal_fix_post_padding :
    (∀ s : String, fixWellNameValue s =
      literalFix (padByLen (sepNorm s).length (sepNorm s))) ∧
    sepNorm "30S/25E ISH01" = "30S/25E-ISH01" ∧
    (sepNorm "30S/25E ISH01").length = 13 ∧
    padByLen 13 "30S/25E-ISH01" = "30S/25E-ISH01" ∧
    literalFix "30S/25E-ISH01" = "30S/25E-15H01" ∧
    fixWellNameValue "30S/25E ISH01" = "30S/25E-15H01" ∧
    fix_well_name [[("state_well_number", Val.vstr "30S/25E ISH01")]] =
      [[("state_well_number", Val.vstr "30S/25E-15H01"),
        ("len", Val.vnum 13)]] := by
  refine ⟨fun s => rfl, ?_, ?_, ?_, ?_, ?_, ?_⟩ <;> decide

/-- **C10** (confirmed).  `fix_well_name` acts rowwise: it preserves the
row count, rewrites only the `state_well_number` column, appends a new
`len` column holding the length of the identifier after separator
normalization and before padding, leaves every other column's values
unchanged, and the `len` column survives until the final column selection
of `transform_wq_data` removes it (whenever `len` is not a requested
output column). -/
theorem fix_well_name_frame (df : List Row) :
    fix_well_name df = df.map fixRow ∧
    (fix_well_name df).length = df.length ∧
    (∀ r ∈ df, "len" ∉ r.map Prod.fst →
      (fixRow r).map Prod.fst = r.map Prod.fst ++ ["len"] ∧
      (∀ c, c ≠ "state_well_number" → c ≠ "len" →
        lookupVal (fixRow r) c = lookupVal r c) ∧
      (∀ s, lookupVal r "state_well_number" = some (.vstr s) →
        lookupVal (fixRow r) "state_well_number" =
            some (.vstr (fixWellNameValue s)) ∧
          lookupVal (fixRow r) "len" = some (.vnum (sepNorm s).length))) ∧
    (∀ ctd ncio ncd today data out,
      transform_wq_data ctd ncio ncd today data = some out →
      "len" ∉ ncio → ∀ r ∈ out, "len" ∉ r.map Prod.fst) := by
  refine ⟨fix_well_name_eq_map df, ?_, ?_, ?_⟩
  · rw [fix_well_name_eq_map]; exact List.length_map df fixRow
  · intro r _ hlen
    exact ⟨keys_fixRow r hlen,
      fun c h1 h2 => lookupVal_fixRow_frame r c h1 h2,
      fun s hs => lookupVal_fixRow_well r s hs⟩
  · intro ctd ncio ncd today data out h hncio r hr
    rw [transform_mem_keys ctd ncio ncd today data out r h hr]
    exact hncio

/-! ## A concrete configuration for evaluations

A small instance of the `etl_variables.yaml` configuration, used for the
concrete evaluations below: drop list, target column order, and the
rename mapping from BSK source columns to canonical names. -/

def ctdEx : List String := ["work_order"]

def ncioEx : List String :=
  ["state_well_number", "sample_date", "result", "date_added"]

def ncdEx : List (String × String) :=
  [("Sample.Wrk", "work_order"), ("Sample.SampleName", "state_well_number"),
   ("Sample.Sampled", "sample_date"), ("Analyte.tResult", "result")]

/-- A raw CSV row with the given well identifier, sample date and result
values. -/
def csvRow (well dt res : Val) : Row :=
  [("Sample.Wrk", .vstr "W1"), ("Sample.SampleName", well),
   ("Sample.Sampled", dt), ("Analyte.tResult", res)]

/-- **C6** (counterexample).  `transform_wq_data` performs no timestamp
parsing at all: a batch whose `sample_date` value matches no timestamp
format is transformed successfully — nothing is raised and the batch is
not aborted — with the unparseable text carried through to the output. -/
theorem transform_no_timestamp_parse_cex :
    transform_wq_data ctdEx ncioEx ncdEx 0
        [csvRow (.vstr "30S/25E-02D01") (.vstr "not-a-timestamp") (.vstr "0.5")] =
      some [[("state_well_number", Val.vstr "30S/25E-02D01"),
        ("sample_date", Val.vstr "not-a-timestamp"),
        ("result", Val.vstr "0.5"), ("date_added", Val.vdate 0)]] := by
  decide

/-- **C6** (amended).  During transformation, `timestamp`-declared columns
are never parsed: every `sample_date` string value — parseable or not — is
kept as text with everything from the first space onward removed
(`str.replace(" (.*)", "")`), and no `sample_date` value causes the batch
to fail. -/
theorem transform_sample_date_text (s : String) :
    transform_wq_data ctdEx ncioEx ncdEx 0
        [csvRow (.vstr "30S/25E-02D01") (.vstr s) (.vstr "0.5")] =
      some [[("state_well_number", Val.vstr "30S/25E-02D01"),
        ("sample_date", Val.vstr (stripFromFirstSpace s)),
        ("result", Val.vstr "0.5"), ("date_added", Val.vdate 0)]] := by
  rfl

/-! ## Lemmas about the padding rule (claim C3) -/

theorem containsSubL_single_iff (c : Char) (l : List Char) :
    containsSubL [c] l = true ↔ c ∈ l := by
  induction l with
  | nil => simp [containsSubL, List.isPrefixOf]
  | cons d rest ih =>
    unfold containsSubL
    have hp : List.isPrefixOf [c] (d :: rest) = (c == d) := by
      simp [List.isPrefixOf]
    rw [hp, Bool.or_eq_true, beq_iff_eq, ih]
    simp

theorem replaceFirstL_no_occurrence (pat rep l : List Char)
    (h : containsSubL pat l = false) : replaceFirstL pat rep l = l := by
  induction l with
  | nil => rfl
  | cons c rest ih =>
    unfold containsSubL at h
    rw [Bool.or_eq_false_iff] at h
    unfold replaceFirstL
    rw [h.1]
    simp [ih h.2]

theorem replaceFirstL_hyphen_split (l : List Char) (h : '-' ∈ l) :
    ∃ a b, l = a ++ '-' :: b ∧ '-' ∉ a ∧
      replaceFirstL ['-'] ['-', '0'] l = a ++ '-' :: '0' :: b := by
  induction l with
  | nil => simp at h
  | cons c rest ih =>
    by_cases hc : c = '-'
    · subst hc
      refine ⟨[], rest, rfl, by simp, ?_⟩
      unfold replaceFirstL
      have hp : List.isPrefixOf ['-'] ('-' :: rest) = true := by
        simp [List.isPrefixOf]
      rw [if_pos hp]
      rfl
    · have hr : '-' ∈ rest := by
        rcases List.mem_cons.mp h with h1 | h1
        · exact absurd h1.symm hc
        · exact h1
      obtain ⟨a, b, he, hna, hrw⟩ := ih hr
      refine ⟨c :: a, b, by simp [he], ?_, ?_⟩
      · simp only [List.mem_cons, not_or]
        exact ⟨fun hcc => hc hcc.symm, hna⟩
      · unfold replaceFirstL
        have hp : List.isPrefixOf ['-'] (c :: rest) = false := by
          simp [List.isPrefixOf]
          exact fun hcc => absurd hcc.symm hc
        rw [if_neg (by simp [hp])]
        simp [hrw]

/-- **C3** (counterexample).  An identifier whose post-separator-
normalization length is 12 but which contains no hyphen is NOT brought to
length 13: `str.replace("-", "-0")` finds no hyphen and the value passes
through unchanged, still of length 12. -/
theorem pad12_no_hyphen_cex :
    (sepNorm "305/25E02D01").length = 12 ∧
    containsStr (sepNorm "305/25E02D01") "-" = false ∧
    padByLen 12 (sepNorm "305/25E02D01") = sepNorm "305/25E02D01" ∧
    fixWellNameValue "305/25E02D01" = "305/25E02D01" ∧
    ¬(fixWellNameValue "305/25E02D01").length = 13 := by
  refine ⟨?_, ?_, ?_, ?_, ?_⟩ <;> decide

/-- **C3** (amended).  After separator normalization: a length-12
identifier that contains a hyphen gets a `"0"` inserted immediately after
its first hyphen and the result has length 13, while a length-12
identifier without a hyphen is left unchanged (length 12); a length-11
identifier gets `"01"` appended and the result has length 13; identifiers
of any other length are left unchanged by this rule. -/
theorem pad_length_rule_amended (s t : String) (ht : t = sepNorm s) :
    (t.length = 12 → containsStr t "-" = true →
      (∃ a b, t.data = a ++ '-' :: b ∧ '-' ∉ a ∧
        (padByLen t.length t).data = a ++ '-' :: '0' :: b) ∧
      (padByLen t.length t).length = 13) ∧
    (t.length = 12 → containsStr t "-" = false → padByLen t.length t = t) ∧
    (t.length = 11 → padByLen t.length t = t ++ "01" ∧
      (padByLen t.length t).length = 13) ∧
    (t.length ≠ 12 → t.length ≠ 11 → padByLen t.length t = t) := by
  refine ⟨?_, ?_, ?_, ?_⟩
  · intro h12 hcon
    have hmem : '-' ∈ t.data := by
      rw [← containsSubL_single_iff]
      exact hcon
    obtain ⟨a, b, he, hna, hrw⟩ := replaceFirstL_hyphen_split t.data hmem
    have hpad : padByLen t.length t = replaceFirstStr t "-" "-0" := by
      rw [h12]; rfl
    have hdata : (padByLen t.length t).data = a ++ '-' :: '0' :: b := by
      rw [hpad]
      show replaceFirstL "-".data "-0".data t.data = a ++ '-' :: '0' :: b
      exact hrw
    refine ⟨⟨a, b, he, hna, hdata⟩, ?_⟩
    have hlen : t.length = t.data.length := rfl
    have hlen2 : (padByLen t.length t).length = (padByLen t.length t).data.length := rfl
    rw [hlen2, hdata]
    have : t.data.length = 12 := by rw [← hlen, h12]
    rw [he] at this
    simp only [List.length_append, List.length_cons] at this ⊢
    omega
  · intro h12 hcon
    have hpad : padByLen t.length t = replaceFirstStr t "-" "-0" := by
      rw [h12]; rfl
    rw [hpad]
    show String.mk (replaceFirstL "-".data "-0".data t.data) = t
    rw [replaceFirstL_no_occurrence _ _ _ hcon]
  · intro h11
    have hpad : padByLen t.length t = t ++ "01" := by rw [h11]; rfl
    refine ⟨hpad, ?_⟩
    rw [hpad, String.length_append, h11]
    decide
  · intro h12 h11
    unfold padByLen
    rw [if_neg h12, if_neg h11]

/-! ## SQL query model (`build_load_query`, lines 196–222)

A psycopg2 `sql.Composed` object is a sequence of fragments; `sql.SQL`
pieces are raw SQL text, `sql.Identifier` pieces are identifier-escaped
names, `sql.Literal` pieces are literal-escaped values.  `format` splices
the arguments into the template, and `join` interleaves a separator; the
composed result is modelled flattened, as the sequence of its leaf
fragments in order. -/

inductive SqlFrag where
  | raw (s : String)
  | ident (s : String)
  | lit (v : Val)
deriving DecidableEq, Repr

/-- `sql.SQL(sep).join(xs)`: interleave the separator between the
fragment lists. -/
def sqlJoin (sep : List SqlFrag) : List (List SqlFrag) → List SqlFrag
  | [] => []
  | [x] => x
  | x :: y :: xs => x ++ sep ++ sqlJoin sep (y :: xs)

/-- The `etl_yaml` configuration keys consumed by the load path.  The
source reads both `etl_yaml["table_name"]` (in `check_table_exists`) and
`etl_yaml["table"]` (in `build_load_query`), and `prim_key` is a raw SQL
snippet (the parenthesized conflict-target list), kept here as the string
the yaml supplies. -/
structure EtlYaml where
  db_name : String
  table_name : String
  schema_name : String
  table : String
  new_columns_in_order : List String
  prim_key : String
  update_col : String
deriving DecidableEq, Repr

/-- `build_load_query` (lines 196–222): the upsert statement for one data
row.  Template:
`INSERT INTO <schema>.<table> (<cols>) VALUES (<vals>)
 ON CONFLICT <prim_key> DO UPDATE SET <upd> = Excluded.<upd>`
where schema, table, the column names and the update column are
`sql.Identifier`s, the values are `sql.Literal`s, and `prim_key` is
spliced as `sql.SQL` — raw, unescaped text. -/
def build_load_query (data : List Val) (y : EtlYaml) : List SqlFrag :=
  let col_names := sqlJoin [.raw ", "]
    (y.new_columns_in_order.map (fun col => [.ident col]))
  let values := sqlJoin [.raw " , "] (data.map (fun v => [.lit v]))
  [SqlFrag.raw "\n        INSERT INTO ", .ident y.schema_name, .raw ".",
    .ident y.table, .raw " ("] ++ col_names ++ [.raw ") VALUES ("] ++ values
    ++ [.raw ")\n        ON CONFLICT ", .raw y.prim_key,
      .raw " DO UPDATE SET ", .ident y.update_col, .raw " = Excluded.",
      .ident y.update_col, .raw "\n        "]

/-- The identifier-escaped names of a composed query, in order. -/
def identsOf (q : List SqlFrag) : List String :=
  q.filterMap (fun f => match f with | .ident s => some s | _ => none)

/-- The literal-escaped values of a composed query, in order. -/
def litsOf (q : List SqlFrag) : List Val :=
  q.filterMap (fun f => match f with | .lit v => some v | _ => none)

theorem identsOf_append (q1 q2 : List SqlFrag) :
    identsOf (q1 ++ q2) = identsOf q1 ++ identsOf q2 :=
  List.filterMap_append q1 q2 _

theorem litsOf_append (q1 q2 : List SqlFrag) :
    litsOf (q1 ++ q2) = litsOf q1 ++ litsOf q2 :=
  List.filterMap_append q1 q2 _

theorem identsOf_ident_join (cols : List String) :
    identsOf (sqlJoin [.raw ", "] (cols.map (fun col => [.ident col]))) = cols := by
  induction cols with
  | nil => rfl
  | cons c rest ih =>
    cases rest with
    | nil => rfl
    | cons c2 rest2 =>
      simp only [List.map_cons, sqlJoin] at ih ⊢
      rw [identsOf_append, identsOf_append, ih]
      rfl

theorem litsOf_ident_join (cols : List String) :
    litsOf (sqlJoin [.raw ", "] (cols.map (fun col => [.ident col]))) = [] := by
  induction cols with
  | nil => rfl
  | cons c rest ih =>
    cases rest with
    | nil => rfl
    | cons c2 rest2 =>
      simp only [List.map_cons, sqlJoin] at ih ⊢
      rw [litsOf_append, litsOf_append, ih]
      rfl

theorem litsOf_lit_join (vals : List Val) :
    litsOf (sqlJoin [.raw " , "] (vals.map (fun v => [.lit v]))) = vals := by
  induction vals with
  | nil => rfl
  | cons v rest ih =>
    cases rest with
    | nil => rfl
    | cons v2 rest2 =>
      simp only [List.map_cons, sqlJoin] at ih ⊢
      rw [litsOf_append, litsOf_append, ih]
      rfl

theorem identsOf_lit_join (vals : List Val) :
    identsOf (sqlJoin [.raw " , "] (vals.map (fun v => [.lit v]))) = [] := by
  induction vals with
  | nil => rfl
  | cons v rest ih =>
    cases rest with
    | nil => rfl
    | cons v2 rest2 =>
      simp only [List.map_cons, sqlJoin] at ih ⊢
      rw [identsOf_append, identsOf_append, ih]
      rfl

/-- An example yaml configuration for concrete evaluations. -/
def yamlEx : EtlYaml :=
  { db_name := "kwb_dw", table_name := "water_quality",
    schema_name := "bsk", table := "water_quality",
    new_columns_in_order := ncioEx,
    prim_key := "(state_well_number, sample_date)",
    update_col := "result" }

/-- **C9** (counterexample).  In the query built for a concrete row, the
`ON CONFLICT` primary-key clause appears as a raw `sql.SQL` fragment —
never as an identifier-escaped fragment — so not all identifiers of the
statement are escaped as identifiers. -/
theorem prim_key_raw_cex :
    SqlFrag.raw "(state_well_number, sample_date)" ∈
        build_load_query [Val.vstr "30S/25E-02D01"] yamlEx ∧
      SqlFrag.ident "(state_well_number, sample_date)" ∉
        build_load_query [Val.vstr "30S/25E-02D01"] yamlEx ∧
      "(state_well_number, sample_date)" ∉
        identsOf (build_load_query [Val.vstr "30S/25E-02D01"] yamlEx) := by
  refine ⟨?_, ?_, ?_⟩ <;> decide

/-- **C9** (amended).  In every statement built by `build_load_query`,
the schema name, table name, every column name, and the update column are
escaped as identifiers and the row values as literals — but the
`ON CONFLICT` primary-key clause is spliced as raw SQL text
(`sql.SQL(etl_yaml["prim_key"])`), not escaped as an identifier. -/
theorem build_query_escaping_amended (data : List Val) (y : EtlYaml) :
    identsOf (build_load_query data y) =
        y.schema_name :: y.table :: y.new_columns_in_order
          ++ [y.update_col, y.update_col] ∧
      litsOf (build_load_query data y) = data ∧
      SqlFrag.raw y.prim_key ∈ build_load_query data y := by
  refine ⟨?_, ?_, ?_⟩
  · unfold build_load_query
    simp only [identsOf_append]
    rw [identsOf_ident_join, identsOf_lit_join]
    simp [identsOf]
  · unfold build_load_query
    simp only [litsOf_append]
    rw [litsOf_ident_join, litsOf_lit_join]
    simp [litsOf]
  · unfold build_load_query
    simp

/-! ## Warehouse model (`check_table_exists`, `load_data_into_pg_warehouse`)

The warehouse is modelled by: whether the target table exists, and the
table's rows (association-list rows, exactly one list entry per physical
row).  Executing the upsert statement built from `(vals, etl_yaml)`
follows Postgres `INSERT ... ON CONFLICT (pk) DO UPDATE` semantics: if a
stored row agrees with the incoming row on the conflict-target columns
`pkCols` (the column list denoted by the raw `prim_key` snippet) the
stored row's update column is overwritten with the incoming
(`Excluded`) value; otherwise the new row is appended.  The connection
has `autocommit = True` (line 131), so each executed statement is durable
on its own. -/

inductive PgError where
  | undefinedTable
  | statementError
deriving DecidableEq, Repr

/-- `check_table_exists` (lines 139–166): issues the bounded probe
`Select * from <schema>.<table> limit 1`.  When the table exists, the
probe succeeds (and an info message is logged).  When the table is
absent, `cur.execute` raises `UndefinedTable` — in psycopg2 a subclass of
`ProgrammingError`, NOT of `OperationalError` — while the function's
`except` clause catches only `pg.OperationalError` (line 165), so the
exception propagates to the caller uncaught and unlogged. -/
def check_table_exists (tableExists : Bool) : Except PgError Unit :=
  if tableExists then .ok () else .error .undefinedTable

/-- The conflict-target tuple of a stored row: its values on the
primary-key columns. -/
def rowPk (pkCols : List String) (r : Row) : List (Option Val) :=
  pkCols.map (lookupVal r)

/-- Overwrite the value stored under the first occurrence of column `c`;
a row without column `c` is unchanged. -/
def setVal : Row → String → Val → Row
  | [], _, _ => []
  | kv :: rest, c, v =>
    if kv.1 = c then (kv.1, v) :: rest else kv :: setVal rest c v

/-- `DO UPDATE SET upd = Excluded.upd`: overwrite the stored row's update
column with the incoming row's value for it. -/
def applyUpdate (upd : String) (newRow r : Row) : Row :=
  match lookupVal newRow upd with
  | none => r
  | some v => setVal r upd v

/-- Postgres semantics of one upsert statement built by
`build_load_query`: the incoming row pairs `cols` with `vals`; a
conflicting stored row (equal conflict-target tuple) gets its update
column overwritten, otherwise the incoming row is inserted. -/
def execUpsert (pkCols : List String) (upd : String) (cols : List String)
    (tbl : List Row) (vals : List Val) : List Row :=
  let newRow := cols.zip vals
  if ∃ r ∈ tbl, rowPk pkCols r = rowPk pkCols newRow then
    tbl.map (fun r =>
      if rowPk pkCols r = rowPk pkCols newRow then applyUpdate upd newRow r else r)
  else tbl ++ [newRow]

/-- The row loop of `load_data_into_pg_warehouse` (lines 181–183): for
each data row, build the query and execute it.  `fails` is the
environment's statement-failure oracle (constraint violation, type
mismatch, missing table at the database, ...); the failing statement is
the last one attempted and the remaining rows are never executed.
Returns (statements attempted, final table, success flag). -/
def runRows (pkCols : List String) (y : EtlYaml)
    (fails : List SqlFrag → Bool) :
    List Row → List (List Val) → List (List SqlFrag) × List Row × Bool
  | tbl, [] => ([], tbl, true)
  | tbl, vals :: rest =>
    let q := build_load_query vals y
    if fails q then ([q], tbl, false)
    else
      let out := runRows pkCols y fails
        (execUpsert pkCols y.update_col y.new_columns_in_order tbl vals) rest
      (q :: out.1, out.2)

/-- Observable outcome of one `load_data_into_pg_warehouse` call. -/
structure LoadResult where
  /-- The table-existence probe was issued. -/
  probed : Bool
  /-- Exception escaping the function uncaught, if any. -/
  raised : Option PgError
  /-- Upsert statements passed to `cur.execute`, in order. -/
  attempted : List (List SqlFrag)
  /-- Final contents of the target table. -/
  tbl : List Row
  /-- The connection acquired at the start was closed by the function. -/
  connClosed : Bool
  /-- The missing-table condition was logged as an error. -/
  loggedTableMissing : Bool
  /-- The loop completed and the success message was logged. -/
  success : Bool
deriving DecidableEq, Repr

/-- `load_data_into_pg_warehouse` (lines 169–193), after a successful
connection acquisition.  `check_table_exists` is called outside the
`try` block: if the table is absent its uncaught `UndefinedTable`
propagates out of the function — nothing is logged, no statement is
executed and the connection is NOT closed.  Otherwise the row loop runs
inside `try`: on success `cur.close(); con.close()`; the bare `except`
catches a statement failure, closes the connection and logs — the
remaining rows are not executed. -/
def load_data_into_pg_warehouse (pkCols : List String) (y : EtlYaml)
    (tableExists : Bool) (fails : List SqlFrag → Bool)
    (tbl0 : List Row) (data : List (List Val)) : LoadResult :=
  match check_table_exists tableExists with
  | .error e =>
    { probed := true, raised := some e, attempted := [], tbl := tbl0,
      connClosed := false, loggedTableMissing := false, success := false }
  | .ok _ =>
    let out := runRows pkCols y fails tbl0 data
    { probed := true, raised := none, attempted := out.1, tbl := out.2.1,
      connClosed := true, loggedTableMissing := false, success := out.2.2 }

/-- **C7** (code bug, evaluated at the failing input).  With the target
table absent and a one-row batch: the bounded probe is issued and no
insert statement is executed, but — contrary to the claim and to the
code's own intent — the missing-table condition is NOT logged as an
error (the `except` clause catches only `pg.OperationalError`, while a
missing table raises `UndefinedTable`, a `ProgrammingError`), the
uncaught exception escapes `load_data_into_pg_warehouse`, and the
connection is left open. -/
theorem table_missing_behavior :
    load_data_into_pg_warehouse ["state_well_number", "sample_date"] yamlEx
        false (fun _ => false) [] [[Val.vstr "30S/25E-02D01"]] =
      { probed := true, raised := some .undefinedTable, attempted := [],
        tbl := [], connClosed := false, loggedTableMissing := false,
        success := false } := by
  rfl

/-- **C8** (counterexample).  Not every exit path of
`load_data_into_pg_warehouse` closes the connection: when the target
table is absent, `check_table_exists` raises before the `try` block is
entered and the function exits with the connection still open. -/
theorem load_conn_not_closed_cex :
    (load_data_into_pg_warehouse ["state_well_number"] yamlEx false
        (fun _ => false) []
        [[Val.vstr "a"], [Val.vstr "b"]]).connClosed = false := by
  rfl

/-- Specification of the row loop: statements are attempted one at a
time, in data order; they form a prefix of the batch's queries; on
success every row was executed; on failure the last attempted statement
is the failing one and everything before it succeeded. -/
theorem runRows_spec (pkCols : List String) (y : EtlYaml)
    (fails : List SqlFrag → Bool) (data : List (List Val)) (tbl : List Row) :
    (runRows pkCols y fails tbl data).1 =
      (data.take (runRows pkCols y fails tbl data).1.length).map
        (fun v => build_load_query v y) ∧
    ((runRows pkCols y fails tbl data).2.2 = true →
      (runRows pkCols y fails tbl data).1.length = data.length) ∧
    ((runRows pkCols y fails tbl data).2.2 = false →
      ∃ qs q, (runRows pkCols y fails tbl data).1 = qs ++ [q] ∧
        fails q = true ∧ ∀ q2 ∈ qs, fails q2 = false) := by
  induction data generalizing tbl with
  | nil =>
    refine ⟨rfl, fun _ => rfl, fun h => ?_⟩
    simp [runRows] at h
  | cons vals rest ih =>
    by_cases hf : fails (build_load_query vals y) = true
    · have hrw : runRows pkCols y fails tbl (vals :: rest) =
          ([build_load_query vals y], tbl, false) := by
        simp [runRows, hf]
      rw [hrw]
      refine ⟨by simp, fun h => by simp at h, fun _ => ?_⟩
      exact ⟨[], build_load_query vals y, by simp, hf, by simp⟩
    · have hf2 : fails (build_load_query vals y) = false := by
        simpa using hf
      set tbl2 := execUpsert pkCols y.update_col y.new_columns_in_order tbl vals
      have hrw : runRows pkCols y fails tbl (vals :: rest) =
          (build_load_query vals y :: (runRows pkCols y fails tbl2 rest).1,
            (runRows pkCols y fails tbl2 rest).2) := by
        simp [runRows, hf2, tbl2]
      rw [hrw]
      obtain ⟨ih1, ih2, ih3⟩ := ih tbl2
      refine ⟨?_, fun h => ?_, fun h => ?_⟩
      · simp only [List.length_cons, List.take_succ_cons, List.map_cons]
        rw [← ih1]
      · simp only [List.length_cons]
        simp only at h
        rw [ih2 h]
      · simp only at h
        obtain ⟨qs, q, he, hq, hqs⟩ := ih3 h
        refine ⟨build_load_query vals y :: qs, q, by simp [he], hq, ?_⟩
        intro q2 hq2
        rcases List.mem_cons.mp hq2 with h1 | h1
        · rw [h1]; exact hf2
        · exact hqs q2 h1

/-- **C8** (amended).  After a successful connection and with the target
table present, rows are executed one statement at a time in batch order;
when a statement fails, none of the remaining rows are executed and the
connection is closed; the connection is closed on the success path and on
every failure inside the row loop — but NOT on the missing-table path,
where the probe's uncaught exception leaves the connection open. -/
theorem load_rowwise_abort_amended (pkCols : List String) (y : EtlYaml)
    (fails : List SqlFrag → Bool) (tbl0 : List Row) (data : List (List Val))
    (res : LoadResult)
    (hres : res = load_data_into_pg_warehouse pkCols y true fails tbl0 data) :
    res.connClosed = true ∧
    res.attempted = (data.take res.attempted.length).map
      (fun v => build_load_query v y) ∧
    (res.success = true → res.attempted.length = data.length) ∧
    (res.success = false → ∃ qs q, res.attempted = qs ++ [q] ∧
      fails q = true ∧ ∀ q2 ∈ qs, fails q2 = false) ∧
    (load_data_into_pg_warehouse pkCols y false fails tbl0 data).connClosed
      = false := by
  obtain ⟨h1, h2, h3⟩ := runRows_spec pkCols y fails data tbl0
  subst hres
  exact ⟨rfl, h1, h2, h3, rfl⟩

/-! ## Idempotence of the upsert loop (claim C1)

Lemmas about `setVal`, `applyUpdate` and `execUpsert`, leading to the
re-run property of `load_data_into_pg_warehouse`. -/

theorem keys_setVal (r : Row) (c : String) (v : Val) :
    (setVal r c v).map Prod.fst = r.map Prod.fst := by
  induction r with
  | nil => rfl
  | cons kv rest ih =>
    by_cases hk : kv.1 = c
    · simp [setVal, hk]
    · simpa [setVal, hk] using ih

theorem setVal_of_lookup_none (r : Row) (c : String) (v : Val)
    (h : lookupVal r c = none) : setVal r c v = r := by
  induction r with
  | nil => rfl
  | cons kv rest ih =>
    rw [lookupVal_cons] at h
    by_cases hk : kv.1 = c
    · rw [if_pos hk] at h; cases h
    · rw [if_neg hk] at h
      simp [setVal, hk, ih h]

theorem lookupVal_setVal_self (r : Row) (c : String) (v w : Val)
    (h : lookupVal r c = some w) : lookupVal (setVal r c v) c = some v := by
  induction r with
  | nil => cases h
  | cons kv rest ih =>
    rw [lookupVal_cons] at h
    by_cases hk : kv.1 = c
    · simp [setVal, hk, lookupVal_cons]
    · rw [if_neg hk] at h
      simp [setVal, hk, lookupVal_cons, ih h]

theorem lookupVal_setVal_ne (r : Row) (c c2 : String) (v : Val)
    (h : c2 ≠ c) : lookupVal (setVal r c v) c2 = lookupVal r c2 := by
  induction r with
  | nil => rfl
  | cons kv rest ih =>
    by_cases hk : kv.1 = c
    · have hne : kv.1 ≠ c2 := by rw [hk]; exact Ne.symm h
      simp [setVal, hk, lookupVal_cons, hne, Ne.symm h]
    · by_cases hk2 : kv.1 = c2
      · simp [setVal, hk, lookupVal_cons, hk2, h]
      · simpa [setVal, hk, lookupVal_cons, hk2] using ih

theorem setVal_of_lookup_eq (r : Row) (c : String) (v : Val)
    (h : lookupVal r c = some v) : setVal r c v = r := by
  induction r with
  | nil => rfl
  | cons kv rest ih =>
    rw [lookupVal_cons] at h
    by_cases hk : kv.1 = c
    · rw [if_pos hk] at h
      cases h
      simp only [setVal, if_pos hk]
    · rw [if_neg hk] at h
      simp [setVal, hk, ih h]

theorem setVal_setVal (r : Row) (c : String) (v w : Val) :
    setVal (setVal r c v) c w = setVal r c w := by
  induction r with
  | nil => rfl
  | cons kv rest ih =>
    by_cases hk : kv.1 = c
    · simp [setVal, hk]
    · simp [setVal, hk, ih]

theorem keys_applyUpdate (upd : String) (nr r : Row) :
    (applyUpdate upd nr r).map Prod.fst = r.map Prod.fst := by
  unfold applyUpdate
  cases lookupVal nr upd with
  | none => rfl
  | some v => exact keys_setVal r upd v

theorem lookupVal_applyUpdate_ne (upd c : String) (nr r : Row)
    (h : c ≠ upd) : lookupVal (applyUpdate upd nr r) c = lookupVal r c := by
  unfold applyUpdate
  cases lookupVal nr upd with
  | none => rfl
  | some v => exact lookupVal_setVal_ne r upd c v h

theorem rowPk_applyUpdate (pkCols : List String) (upd : String) (nr r : Row)
    (h : rowPk pkCols r = rowPk pkCols nr) :
    rowPk pkCols (applyUpdate upd nr r) = rowPk pkCols r := by
  by_cases hmem : upd ∈ pkCols
  · have hpoint : lookupVal r upd = lookupVal nr upd := by
      have := List.map_eq_map_iff.mp h upd hmem
      exact this
    unfold applyUpdate
    cases hv : lookupVal nr upd with
    | none => rfl
    | some v =>
      show rowPk pkCols (setVal r upd v) = rowPk pkCols r
      rw [setVal_of_lookup_eq r upd v (by rw [hpoint, hv])]
  · unfold applyUpdate
    cases hv : lookupVal nr upd with
    | none => rfl
    | some v =>
      show rowPk pkCols (setVal r upd v) = rowPk pkCols r
      unfold rowPk
      refine List.map_congr_left ?_
      intro pc hpc
      exact lookupVal_setVal_ne r upd pc v (fun he => hmem (he ▸ hpc))

theorem lookupVal_applyUpdate_upd (upd : String) (nr r : Row)
    (hk : r.map Prod.fst = nr.map Prod.fst) :
    lookupVal (applyUpdate upd nr r) upd = lookupVal nr upd := by
  unfold applyUpdate
  cases hv : lookupVal nr upd with
  | none =>
    cases hr : lookupVal r upd with
    | none => rfl
    | some w =>
      have h1 : (lookupVal r upd).isSome = true := by rw [hr]; rfl
      rw [lookupVal_isSome_iff_mem, hk, ← lookupVal_isSome_iff_mem, hv] at h1
      cases h1
  | some v =>
    cases hr : lookupVal r upd with
    | none =>
      have h1 : (lookupVal nr upd).isSome = true := by rw [hv]; rfl
      rw [lookupVal_isSome_iff_mem, ← hk, ← lookupVal_isSome_iff_mem, hr] at h1
      cases h1
    | some w => exact lookupVal_setVal_self r upd v w hr

theorem applyUpdate_applyUpdate (upd : String) (nr1 nr2 r : Row)
    (hk : nr1.map Prod.fst = nr2.map Prod.fst) :
    applyUpdate upd nr2 (applyUpdate upd nr1 r) = applyUpdate upd nr2 r := by
  unfold applyUpdate
  cases hv1 : lookupVal nr1 upd with
  | none => rfl
  | some v1 =>
    cases hv2 : lookupVal nr2 upd with
    | none =>
      have h1 : (lookupVal nr1 upd).isSome = true := by rw [hv1]; rfl
      rw [lookupVal_isSome_iff_mem, hk, ← lookupVal_isSome_iff_mem, hv2] at h1
      cases h1
    | some v2 => exact setVal_setVal r upd v1 v2

theorem applyUpdate_noop (upd : String) (nr r : Row)
    (h : lookupVal r upd = lookupVal nr upd) : applyUpdate upd nr r = r := by
  unfold applyUpdate
  cases hv : lookupVal nr upd with
  | none => rfl
  | some v => exact setVal_of_lookup_eq r upd v (by rw [h, hv])

/-- The conflict-target tuples stored in a table, in row order. -/
def pksOf (pkCols : List String) (tbl : List Row) : List (List (Option Val)) :=
  tbl.map (rowPk pkCols)

/-- The cumulative effect of the row loop with no statement failures:
fold the upsert semantics over the batch (lines 181–183). -/
def loadBatch (pkCols : List String) (upd : String) (cols : List String)
    (tbl : List Row) (rows : List (List Val)) : List Row :=
  rows.foldl (fun t vals => execUpsert pkCols upd cols t vals) tbl

/-- The last batch row whose conflict-target tuple is `p` (the
last-write-wins value for that primary key). -/
def lastWithPk (pkCols cols : List String) (p : List (Option Val))
    (rows : List (List Val)) : Option (List Val) :=
  rows.reverse.find? (fun v => decide (rowPk pkCols (cols.zip v) = p))

theorem mem_pksOf (pkCols : List String) (tbl : List Row)
    (p : List (Option Val)) :
    p ∈ pksOf pkCols tbl ↔ ∃ r ∈ tbl, rowPk pkCols r = p := by
  simp [pksOf, List.mem_map]

theorem execUpsert_conflict (pkCols : List String) (upd : String)
    (cols : List String) (tbl : List Row) (vals : List Val)
    (h : ∃ r ∈ tbl, rowPk pkCols r = rowPk pkCols (cols.zip vals)) :
    execUpsert pkCols upd cols tbl vals =
      tbl.map (fun r =>
        if rowPk pkCols r = rowPk pkCols (cols.zip vals) then
          applyUpdate upd (cols.zip vals) r
        else r) := by
  simp only [execUpsert]
  rw [if_pos h]

theorem execUpsert_insert (pkCols : List String) (upd : String)
    (cols : List String) (tbl : List Row) (vals : List Val)
    (h : ¬∃ r ∈ tbl, rowPk pkCols r = rowPk pkCols (cols.zip vals)) :
    execUpsert pkCols upd cols tbl vals = tbl ++ [cols.zip vals] := by
  simp only [execUpsert]
  rw [if_neg h]

theorem pksOf_execUpsert (pkCols : List String) (upd : String)
    (cols : List String) (tbl : List Row) (vals : List Val) :
    pksOf pkCols (execUpsert pkCols upd cols tbl vals) =
      if rowPk pkCols (cols.zip vals) ∈ pksOf pkCols tbl then pksOf pkCols tbl
      else pksOf pkCols tbl ++ [rowPk pkCols (cols.zip vals)] := by
  by_cases h : ∃ r ∈ tbl, rowPk pkCols r = rowPk pkCols (cols.zip vals)
  · rw [execUpsert_conflict pkCols upd cols tbl vals h,
      if_pos ((mem_pksOf pkCols tbl _).mpr h)]
    unfold pksOf
    rw [List.map_map]
    refine List.map_congr_left ?_
    intro r _
    simp only [Function.comp_apply]
    by_cases hc : rowPk pkCols r = rowPk pkCols (cols.zip vals)
    · rw [if_pos hc]
      exact rowPk_applyUpdate pkCols upd (cols.zip vals) r hc
    · rw [if_neg hc]
  · rw [execUpsert_insert pkCols upd cols tbl vals h,
      if_neg (fun hm => h ((mem_pksOf pkCols tbl _).mp hm))]
    unfold pksOf
    rw [List.map_append, List.map_singleton]

theorem nodup_pksOf_execUpsert (pkCols : List String) (upd : String)
    (cols : List String) (tbl : List Row) (vals : List Val)
    (h : (pksOf pkCols tbl).Nodup) :
    (pksOf pkCols (execUpsert pkCols upd cols tbl vals)).Nodup := by
  rw [pksOf_execUpsert]
  by_cases hm : rowPk pkCols (cols.zip vals) ∈ pksOf pkCols tbl
  · rw [if_pos hm]; exact h
  · rw [if_neg hm]
    simp [List.nodup_append, h, hm]

theorem keysInv_execUpsert (pkCols : List String) (upd : String)
    (cols : List String) (tbl : List Row) (vals : List Val)
    (hk : ∀ r ∈ tbl, r.map Prod.fst = cols) (hlen : vals.length = cols.length) :
    ∀ r ∈ execUpsert pkCols upd cols tbl vals, r.map Prod.fst = cols := by
  have hzip : (cols.zip vals).map Prod.fst = cols :=
    List.map_fst_zip cols vals (le_of_eq hlen.symm)
  by_cases h : ∃ r ∈ tbl, rowPk pkCols r = rowPk pkCols (cols.zip vals)
  · rw [execUpsert_conflict pkCols upd cols tbl vals h]
    intro r hr
    obtain ⟨r0, hr0, hre⟩ := List.mem_map.mp hr
    by_cases hc : rowPk pkCols r0 = rowPk pkCols (cols.zip vals)
    · rw [← hre, if_pos hc, keys_applyUpdate]
      exact hk r0 hr0
    · rw [← hre, if_neg hc]
      exact hk r0 hr0
  · rw [execUpsert_insert pkCols upd cols tbl vals h]
    intro r hr
    rcases List.mem_append.mp hr with h1 | h1
    · exact hk r h1
    · rw [List.mem_singleton.mp h1]
      exact hzip

theorem lastWithPk_append_single (pkCols cols : List String)
    (p : List (Option Val)) (rows : List (List Val)) (v : List Val) :
    lastWithPk pkCols cols p (rows ++ [v]) =
      if rowPk pkCols (cols.zip v) = p then some v
      else lastWithPk pkCols cols p rows := by
  unfold lastWithPk
  rw [List.reverse_append]
  by_cases hc : rowPk pkCols (cols.zip v) = p
  · rw [if_pos hc]
    simp only [List.reverse_singleton, List.singleton_append]
    exact List.find?_cons_of_pos _ (decide_eq_true hc)
  · rw [if_neg hc]
    simp only [List.reverse_singleton, List.singleton_append]
    exact List.find?_cons_of_neg _ (by simpa using hc)

theorem lastWithPk_eq_some_pk (pkCols cols : List String)
    (p : List (Option Val)) (rows : List (List Val)) (v : List Val)
    (h : lastWithPk pkCols cols p rows = some v) :
    rowPk pkCols (cols.zip v) = p := by
  unfold lastWithPk at h
  have h2 := List.find?_some h
  simp only [decide_eq_true_eq] at h2
  exact h2

theorem lastWithPk_isSome_iff (pkCols cols : List String)
    (p : List (Option Val)) (rows : List (List Val)) :
    (lastWithPk pkCols cols p rows).isSome = true ↔
      p ∈ rows.map (fun v => rowPk pkCols (cols.zip v)) := by
  unfold lastWithPk
  rw [List.find?_isSome]
  simp [List.mem_reverse, List.mem_map, eq_comm]

theorem loadBatch_append_single (pkCols : List String) (upd : String)
    (cols : List String) (tbl : List Row) (rows : List (List Val))
    (v : List Val) :
    loadBatch pkCols upd cols tbl (rows ++ [v]) =
      execUpsert pkCols upd cols (loadBatch pkCols upd cols tbl rows) v := by
  simp [loadBatch, List.foldl_append]

/-- Invariants of the table produced by loading a batch into an empty
table: all rows carry the target columns; conflict-target tuples are
pairwise distinct; the stored tuples are exactly the batch's tuples; and
every stored row's update column holds the value of the last batch row
with its tuple (last-write-wins). -/
theorem loadBatch_from_empty (pkCols : List String) (upd : String)
    (cols : List String) (rows : List (List Val))
    (hlen : ∀ v ∈ rows, v.length = cols.length) :
    (∀ r ∈ loadBatch pkCols upd cols [] rows, r.map Prod.fst = cols) ∧
    (pksOf pkCols (loadBatch pkCols upd cols [] rows)).Nodup ∧
    (∀ p, p ∈ pksOf pkCols (loadBatch pkCols upd cols [] rows) ↔
      p ∈ rows.map (fun v => rowPk pkCols (cols.zip v))) ∧
    (∀ tr ∈ loadBatch pkCols upd cols [] rows,
      ∃ vals, lastWithPk pkCols cols (rowPk pkCols tr) rows = some vals ∧
        lookupVal tr upd = lookupVal (cols.zip vals) upd) := by
  induction rows using List.reverseRecOn with
  | nil =>
    refine ⟨?_, ?_, ?_, ?_⟩
    · intro r hr; cases hr
    · exact List.nodup_nil
    · intro p; simp [loadBatch, pksOf]
    · intro tr htr; cases htr
  | append_singleton rows v ih =>
    have hlen0 : ∀ w ∈ rows, w.length = cols.length :=
      fun w hw => hlen w (List.mem_append_left _ hw)
    have hlenv : v.length = cols.length :=
      hlen v (List.mem_append_right _ (List.mem_singleton_self v))
    obtain ⟨ihKeys, ihNodup, ihMem, ihUpd⟩ := ih hlen0
    rw [loadBatch_append_single]
    set t := loadBatch pkCols upd cols [] rows with ht
    have hzipkeys : (cols.zip v).map Prod.fst = cols :=
      List.map_fst_zip cols v (le_of_eq hlenv.symm)
    refine ⟨?_, ?_, ?_, ?_⟩
    · exact keysInv_execUpsert pkCols upd cols t v ihKeys hlenv
    · exact nodup_pksOf_execUpsert pkCols upd cols t v ihNodup
    · intro p
      rw [pksOf_execUpsert]
      by_cases hm : rowPk pkCols (cols.zip v) ∈ pksOf pkCols t
      · rw [if_pos hm]
        rw [List.map_append, List.map_singleton]
        constructor
        · intro hp
          exact List.mem_append_left _ ((ihMem p).mp hp)
        · intro hp
          rcases List.mem_append.mp hp with h1 | h1
          · exact (ihMem p).mpr h1
          · rw [List.mem_singleton.mp h1]
            exact hm
      · rw [if_neg hm]
        rw [List.map_append, List.map_singleton]
        constructor
        · intro hp
          rcases List.mem_append.mp hp with h1 | h1
          · exact List.mem_append_left _ ((ihMem p).mp h1)
          · exact List.mem_append_right _ h1
        · intro hp
          rcases List.mem_append.mp hp with h1 | h1
          · exact List.mem_append_left _ ((ihMem p).mpr h1)
          · exact List.mem_append_right _ h1
    · intro tr htr
      by_cases hconf : ∃ r ∈ t, rowPk pkCols r = rowPk pkCols (cols.zip v)
      · rw [execUpsert_conflict pkCols upd cols t v hconf] at htr
        obtain ⟨r0, hr0, hre⟩ := List.mem_map.mp htr
        by_cases hc : rowPk pkCols r0 = rowPk pkCols (cols.zip v)
        · rw [if_pos hc] at hre
          have hpk : rowPk pkCols tr = rowPk pkCols r0 := by
            rw [← hre]
            exact rowPk_applyUpdate pkCols upd (cols.zip v) r0 hc
          refine ⟨v, ?_, ?_⟩
          · rw [lastWithPk_append_single, hpk, if_pos hc.symm]
          · rw [← hre]
            exact lookupVal_applyUpdate_upd upd (cols.zip v) r0
              (by rw [ihKeys r0 hr0, hzipkeys])
        · rw [if_neg hc] at hre
          obtain ⟨vals, hlast, hupd⟩ := ihUpd r0 hr0
          refine ⟨vals, ?_, ?_⟩
          · rw [← hre, lastWithPk_append_single,
              if_neg (fun he => hc (by rw [← he]))]
            exact hlast
          · rw [← hre]; exact hupd
      · rw [execUpsert_insert pkCols upd cols t v hconf] at htr
        rcases List.mem_append.mp htr with h1 | h1
        · have hne : rowPk pkCols (cols.zip v) ≠ rowPk pkCols tr :=
            fun he => hconf ⟨tr, h1, he.symm⟩
          obtain ⟨vals, hlast, hupd⟩ := ihUpd tr h1
          refine ⟨vals, ?_, hupd⟩
          rw [lastWithPk_append_single, if_neg hne]
          exact hlast
        · rw [List.mem_singleton.mp h1]
          refine ⟨v, ?_, rfl⟩
          rw [lastWithPk_append_single, if_pos rfl]

/-- Re-loading a batch into a table that already holds all of its
conflict-target tuples only overwrites update-column values: each stored
row receives the update value of the last batch row with its tuple. -/
def overwriteTbl (pkCols : List String) (upd : String) (cols : List String)
    (rows : List (List Val)) (tbl : List Row) : List Row :=
  tbl.map (fun tr =>
    match lastWithPk pkCols cols (rowPk pkCols tr) rows with
    | none => tr
    | some v => applyUpdate upd (cols.zip v) tr)

theorem rowPk_overwriteStep (pkCols : List String) (upd : String)
    (cols : List String) (rows : List (List Val)) (tr : Row) :
    rowPk pkCols (match lastWithPk pkCols cols (rowPk pkCols tr) rows with
      | none => tr
      | some v => applyUpdate upd (cols.zip v) tr) = rowPk pkCols tr := by
  cases hl : lastWithPk pkCols cols (rowPk pkCols tr) rows with
  | none => rfl
  | some w =>
    exact rowPk_applyUpdate pkCols upd (cols.zip w) tr
      (lastWithPk_eq_some_pk pkCols cols _ rows w hl).symm

theorem pksOf_overwriteTbl (pkCols : List String) (upd : String)
    (cols : List String) (rows : List (List Val)) (tbl : List Row) :
    pksOf pkCols (overwriteTbl pkCols upd cols rows tbl) = pksOf pkCols tbl := by
  unfold overwriteTbl pksOf
  rw [List.map_map]
  refine List.map_congr_left ?_
  intro tr _
  simp only [Function.comp_apply]
  exact rowPk_overwriteStep pkCols upd cols rows tr

theorem loadBatch_overwrite (pkCols : List String) (upd : String)
    (cols : List String) (rows : List (List Val)) (tbl : List Row)
    (hmem : ∀ v ∈ rows, rowPk pkCols (cols.zip v) ∈ pksOf pkCols tbl)
    (hkeys : ∀ r ∈ tbl, r.map Prod.fst = cols)
    (hlen : ∀ v ∈ rows, v.length = cols.length) :
    loadBatch pkCols upd cols tbl rows =
      overwriteTbl pkCols upd cols rows tbl := by
  induction rows using List.reverseRecOn with
  | nil =>
    show tbl = tbl.map _
    have : ∀ tr ∈ tbl,
        (match lastWithPk pkCols cols (rowPk pkCols tr) [] with
          | none => tr
          | some v => applyUpdate upd (cols.zip v) tr) = tr := by
      intro tr _
      rfl
    rw [List.map_congr_left this]
    exact (List.map_id' tbl).symm
  | append_singleton rows v ih =>
    have hmem0 : ∀ w ∈ rows, rowPk pkCols (cols.zip w) ∈ pksOf pkCols tbl :=
      fun w hw => hmem w (List.mem_append_left _ hw)
    have hlen0 : ∀ w ∈ rows, w.length = cols.length :=
      fun w hw => hlen w (List.mem_append_left _ hw)
    have hmemv : rowPk pkCols (cols.zip v) ∈ pksOf pkCols tbl :=
      hmem v (List.mem_append_right _ (List.mem_singleton_self v))
    have hlenv : v.length = cols.length :=
      hlen v (List.mem_append_right _ (List.mem_singleton_self v))
    rw [loadBatch_append_single, ih hmem0 hlen0]
    have hconf : ∃ r ∈ overwriteTbl pkCols upd cols rows tbl,
        rowPk pkCols r = rowPk pkCols (cols.zip v) := by
      rw [← mem_pksOf, pksOf_overwriteTbl]
      exact hmemv
    rw [execUpsert_conflict pkCols upd cols _ v hconf]
    unfold overwriteTbl
    rw [List.map_map]
    refine List.map_congr_left ?_
    intro tr htr
    simp only [Function.comp_apply]
    rw [lastWithPk_append_single]
    have hpkstep := rowPk_overwriteStep pkCols upd cols rows tr
    by_cases he : rowPk pkCols (cols.zip v) = rowPk pkCols tr
    · rw [if_pos he]
      have hcond : rowPk pkCols
          (match lastWithPk pkCols cols (rowPk pkCols tr) rows with
            | none => tr
            | some w => applyUpdate upd (cols.zip w) tr) =
          rowPk pkCols (cols.zip v) := by
        rw [hpkstep, he]
      rw [if_pos hcond]
      cases hl : lastWithPk pkCols cols (rowPk pkCols tr) rows with
      | none => rfl
      | some w =>
        have hkw : (cols.zip w).map Prod.fst = (cols.zip v).map Prod.fst := by
          rw [List.map_fst_zip cols w
              (le_of_eq (hlen0 w ?_).symm),
            List.map_fst_zip cols v (le_of_eq hlenv.symm)]
          · have := List.mem_of_find?_eq_some hl
            exact List.mem_reverse.mp this
        exact applyUpdate_applyUpdate upd (cols.zip w) (cols.zip v) tr hkw
    · rw [if_neg he]
      have hcond : ¬ rowPk pkCols
          (match lastWithPk pkCols cols (rowPk pkCols tr) rows with
            | none => tr
            | some w => applyUpdate upd (cols.zip w) tr) =
          rowPk pkCols (cols.zip v) := by
        rw [hpkstep]
        exact fun hx => he hx.symm
      rw [if_neg hcond]

theorem countP_of_nodup_pks (pkCols : List String) (tbl : List Row)
    (p : List (Option Val)) (h : (pksOf pkCols tbl).Nodup) :
    tbl.countP (fun r => decide (rowPk pkCols r = p)) =
      if p ∈ pksOf pkCols tbl then 1 else 0 := by
  induction tbl with
  | nil => simp [pksOf]
  | cons r rest ih =>
    have hn : (rowPk pkCols r :: pksOf pkCols rest).Nodup := h
    have hnotin : rowPk pkCols r ∉ pksOf pkCols rest := (List.nodup_cons.mp hn).1
    have ihr := ih (List.nodup_cons.mp hn).2
    rw [List.countP_cons]
    by_cases hc : rowPk pkCols r = p
    · have hrest : p ∉ pksOf pkCols rest := by
        rw [← hc]
        exact hnotin
      have hm : p ∈ pksOf pkCols (r :: rest) := by
        simp [pksOf, hc.symm]
      rw [ihr, if_neg hrest, if_pos hm]
      simp [hc]
    · have hm : p ∈ pksOf pkCols (r :: rest) ↔ p ∈ pksOf pkCols rest := by
        simp only [pksOf, List.map_cons, List.mem_cons]
        constructor
        · intro hx
          rcases hx with hx | hx
          · exact absurd hx.symm hc
          · exact hx
        · exact fun hx => Or.inr hx
      have hif : (if p ∈ pksOf pkCols (r :: rest) then 1 else 0) =
          (if p ∈ pksOf pkCols rest then 1 else 0) := if_congr hm rfl rfl
      rw [ihr, hif]
      simp [hc]

theorem loadBatch_stable (pkCols : List String) (upd : String)
    (cols : List String) (rows : List (List Val))
    (hlen : ∀ v ∈ rows, v.length = cols.length) :
    loadBatch pkCols upd cols (loadBatch pkCols upd cols [] rows) rows =
      loadBatch pkCols upd cols [] rows := by
  obtain ⟨hkeys, _, hmem, hupd⟩ :=
    loadBatch_from_empty pkCols upd cols rows hlen
  rw [loadBatch_overwrite pkCols upd cols rows _
    (fun v hv => (hmem _).mpr (List.mem_map_of_mem _ hv)) hkeys hlen]
  unfold overwriteTbl
  have : ∀ tr ∈ loadBatch pkCols upd cols [] rows,
      (match lastWithPk pkCols cols (rowPk pkCols tr) rows with
        | none => tr
        | some v => applyUpdate upd (cols.zip v) tr) = tr := by
    intro tr htr
    obtain ⟨vals, hlast, hupdv⟩ := hupd tr htr
    rw [hlast]
    exact applyUpdate_noop upd (cols.zip vals) tr hupdv
  rw [List.map_congr_left this]
  exact List.map_id' _

theorem runRows_noFail (pkCols : List String) (y : EtlYaml)
    (tbl : List Row) (data : List (List Val)) :
    runRows pkCols y (fun _ => false) tbl data =
      (data.map (fun v => build_load_query v y),
        loadBatch pkCols y.update_col y.new_columns_in_order tbl data,
        true) := by
  induction data generalizing tbl with
  | nil => rfl
  | cons vals rest ih =>
    simp only [runRows, Bool.false_eq_true, if_false, List.map_cons]
    rw [ih]
    rfl

/-- **C1** (confirmed).  Loading the same cleaned batch twice — first into
an empty table, then into the table populated by the first load — leaves
the table contents of the first load unchanged, stores exactly one row
per conflict-target (primary-key) tuple of the batch, and leaves each
stored row's update column equal to the value of the (second load's) last
batch row with that tuple: a pure update, no duplication. -/
theorem load_idempotent_rerun (pkCols : List String) (y : EtlYaml)
    (rows : List (List Val))
    (hlen : ∀ v ∈ rows, v.length = y.new_columns_in_order.length)
    (t1 t2 : List Row)
    (h1 : t1 = (load_data_into_pg_warehouse pkCols y true (fun _ => false)
      [] rows).tbl)
    (h2 : t2 = (load_data_into_pg_warehouse pkCols y true (fun _ => false)
      t1 rows).tbl) :
    t2 = t1 ∧
    (∀ p, t2.countP (fun r => decide (rowPk pkCols r = p)) =
      if p ∈ rows.map (fun v => rowPk pkCols (y.new_columns_in_order.zip v))
      then 1 else 0) ∧
    (∀ tr ∈ t2, ∃ vals,
      lastWithPk pkCols y.new_columns_in_order (rowPk pkCols tr) rows =
        some vals ∧
      lookupVal tr y.update_col =
        lookupVal (y.new_columns_in_order.zip vals) y.update_col) ∧
    (load_data_into_pg_warehouse pkCols y true (fun _ => false)
      [] rows).success = true := by
  have hload : ∀ tbl0 : List Row,
      load_data_into_pg_warehouse pkCols y true (fun _ => false) tbl0 rows =
        { probed := true, raised := none,
          attempted := rows.map (fun v => build_load_query v y),
          tbl := loadBatch pkCols y.update_col y.new_columns_in_order tbl0 rows,
          connClosed := true, loggedTableMissing := false, success := true } := by
    intro tbl0
    simp only [load_data_into_pg_warehouse, check_table_exists, if_true]
    rw [runRows_noFail]
  obtain ⟨hkeys, hnodup, hmem, hupd⟩ :=
    loadBatch_from_empty pkCols y.update_col y.new_columns_in_order rows hlen
  have ht1 : t1 = loadBatch pkCols y.update_col y.new_columns_in_order [] rows := by
    rw [h1, hload]
  have ht2 : t2 = t1 := by
    rw [h2, hload t1, ht1]
    exact loadBatch_stable pkCols y.update_col y.new_columns_in_order rows hlen
  refine ⟨ht2, ?_, ?_, ?_⟩
  · intro p
    rw [ht2, ht1, countP_of_nodup_pks pkCols _ p hnodup]
    exact if_congr (hmem p) rfl rfl
  · intro tr htr
    rw [ht2, ht1] at htr
    exact hupd tr htr
  · rw [hload]

/-- Concrete conflict-target columns and batch for the evaluations below:
two rows with the same primary-key tuple and different update values. -/
def pkColsC1 : List String := ["state_well_number", "sample_date"]

def rowsC1 : List (List Val) :=
  [[.vstr "30S/25E-02D01", .vstr "1/2/2024", .vstr "1.0", .vdate 0],
   [.vstr "30S/25E-02D01", .vstr "1/2/2024", .vstr "2.0", .vdate 0]]

/-- Witness for `load_idempotent_rerun`: its hypotheses hold, and its
conclusion follows, on a concrete two-row batch whose rows share a
primary-key tuple. -/
theorem load_idempotent_rerun_witness :
    (∀ v ∈ rowsC1, v.length = yamlEx.new_columns_in_order.length) ∧
    (load_data_into_pg_warehouse pkColsC1 yamlEx true (fun _ => false)
        (load_data_into_pg_warehouse pkColsC1 yamlEx true (fun _ => false)
          [] rowsC1).tbl rowsC1).tbl =
      (load_data_into_pg_warehouse pkColsC1 yamlEx true (fun _ => false)
        [] rowsC1).tbl :=
  ⟨by decide,
    (load_idempotent_rerun pkColsC1 yamlEx rowsC1 (by decide) _ _ rfl rfl).1⟩

/-- A filtered-stage row for the witness evaluations. -/
def rowC4 : Row :=
  [("state_well_number", .vstr "30S/25E-02D01"), ("result", .vstr "0.5")]

/-- Witness for `row_filter_iff` at a concrete row. -/
theorem row_filter_iff_witness :
    lookupVal rowC4 "state_well_number" = some (Val.vstr "30S/25E-02D01") ∧
    (rowC4 ∈ rowFilterStage [rowC4] ↔
      rowC4 ∈ [rowC4] ∧
        containsStr "30S/25E-02D01" "Field Blank" = false ∧
        containsStr "30S/25E-02D01" "TB" = false ∧
        containsStr "30S/25E-02D01" "TCP" = false ∧
        resultNonNull rowC4 = true) :=
  ⟨rfl, row_filter_iff [rowC4] rowC4 "30S/25E-02D01" rfl⟩

/-- The transformed row produced from the concrete batch below. -/
def outRowC5 : Row :=
  [("state_well_number", .vstr "30S/25E-02D01"),
   ("sample_date", .vstr "1/2/2024"), ("result", .vstr "0.5"),
   ("date_added", .vdate 0)]

/-- Witness for `transform_output_schema`: a concrete batch transforms
successfully and the theorem applies to its output. -/
theorem transform_output_schema_witness :
    transform_wq_data ctdEx ncioEx ncdEx 0
        [csvRow (.vstr "30S/25E-02D01") (.vstr "1/2/2024 10:00:00 AM")
          (.vstr "0.5")] = some [outRowC5] ∧
    (∀ r ∈ [outRowC5], r.map Prod.fst = ncioEx ∧
      lookupVal r "result" ≠ some Val.vnull ∧
      lookupVal r "state_well_number" ≠ some Val.vnull) :=
  ⟨by decide, transform_output_schema ctdEx ncioEx ncdEx 0
    [csvRow (.vstr "30S/25E-02D01") (.vstr "1/2/2024 10:00:00 AM")
      (.vstr "0.5")] [outRowC5] (by decide)⟩

/-- Witness for `fix_well_name_frame` at a concrete one-row frame. -/
theorem fix_well_name_frame_witness :
    rowC4 ∈ [rowC4] ∧ "len" ∉ rowC4.map Prod.fst ∧
    (fixRow rowC4).map Prod.fst = rowC4.map Prod.fst ++ ["len"] ∧
    lookupVal (fixRow rowC4) "state_well_number" =
      some (.vstr (fixWellNameValue "30S/25E-02D01")) :=
  ⟨List.mem_singleton_self rowC4, by decide,
    ((fix_well_name_frame [rowC4]).2.2.1 rowC4 (List.mem_singleton_self rowC4)
      (by decide)).1,
    (((fix_well_name_frame [rowC4]).2.2.1 rowC4 (List.mem_singleton_self rowC4)
      (by decide)).2.2 "30S/25E-02D01" rfl).1⟩

/-- Witness for `pad_length_rule_amended` on a hyphen-bearing length-12
identifier. -/
theorem pad_length_rule_amended_witness :
    (sepNorm "30S/25E 2D01").length = 12 ∧
    containsStr (sepNorm "30S/25E 2D01") "-" = true ∧
    (padByLen (sepNorm "30S/25E 2D01").length
      (sepNorm "30S/25E 2D01")).length = 13 :=
  ⟨by decide, by decide,
    ((pad_length_rule_amended "30S/25E 2D01" (sepNorm "30S/25E 2D01") rfl).1
      (by decide) (by decide)).2⟩

/-- Witness for `load_rowwise_abort_amended` on a concrete one-row
batch. -/
theorem load_rowwise_abort_amended_witness :
    (load_data_into_pg_warehouse pkColsC1 yamlEx true (fun _ => false) []
      [[Val.vstr "w"]]).connClosed = true :=
  (load_rowwise_abort_amended pkColsC1 yamlEx (fun _ => false) []
    [[Val.vstr "w"]] _ rfl).1

end WqLoader
